import Mathlib

/-!
Verification of the schema-driven data modeling and validation engine
specified for the go-yang-basics repository: typed leaves with range,
pattern, enumeration and union constraints, schema assembly with
deviations and augmentations, a JSON codec, and a violation-collecting
validator.  Concrete schemas are transcribed from the repository's YANG
models (base.yang, deviation.yang, augment.yang) and the generated-code
`Unmarshal` wrapper is transcribed from the repository's inlined copy.
-/

set_option maxHeartbeats 1000000

namespace YB

/-! ## Values and base types -/

/-- A scalar value held by a data-tree leaf: a string or an integer.
Enumeration symbols are carried as strings, matching their JSON encoding. -/
inductive YangValue where
  | s (v : String)
  | i (v : Int)
deriving DecidableEq

/-- A leaf base type: `string`, or an integer of a signedness and bit width
(`yint true 32` is `int32`, `yint false 8` is `uint8`). -/
inductive BaseType where
  | ystring
  | yint (signed : Bool) (width : Nat)
deriving DecidableEq

/-- Whether integer `n` is representable with the given signedness and width. -/
def intFits (signed : Bool) (width : Nat) (n : Int) : Bool :=
  if signed then decide (-(2 ^ (width - 1) : Int) ≤ n) && decide (n < (2 ^ (width - 1) : Int))
  else decide ((0 : Int) ≤ n) && decide (n < (2 ^ width : Int))

/-- Modelled from the spec: union member selection is structural, "the first
base type compatible with the literal's syntactic shape"; a string literal is
compatible with the string base type, an integer literal with any integer base
type that can represent it.  (The structural type-switch lives in the ygot
runtime, which is not part of this repository's sources.) -/
def compatible (v : YangValue) (bt : BaseType) : Bool :=
  match v, bt with
  | .s _, .ystring => true
  | .i n, .yint sg w => intFits sg w n
  | _, _ => false

/-- Render a base type the way the YANG models name it. -/
def showBase : BaseType → String
  | .ystring => "string"
  | .yint true w => "int" ++ toString w
  | .yint false w => "uint" ++ toString w

/-! ## Regular expressions (YANG `pattern` facets)

Modelled from the spec: pattern constraints are anchored regular expressions
matching the entire value.  The matcher uses Brzozowski derivatives; full-match
semantics makes the implicit `^(...)$` anchoring of the source tooling exact. -/

/-- Regular expression abstract syntax sufficient for the repository's
patterns: literals, `.`, character classes, alternation, concatenation, star. -/
inductive Regex where
  | emp
  | eps
  | chr (c : Char)
  | dot
  | cls (cs : List Char)
  | ralt (a b : Regex)
  | rcat (a b : Regex)
  | star (a : Regex)
deriving DecidableEq

/-- Whether a regex accepts the empty string. -/
def nullable : Regex → Bool
  | .emp => false
  | .eps => true
  | .chr _ => false
  | .dot => false
  | .cls _ => false
  | .ralt a b => nullable a || nullable b
  | .rcat a b => nullable a && nullable b
  | .star _ => true

/-- Brzozowski derivative of a regex with respect to one character. -/
def rderiv (r : Regex) (x : Char) : Regex :=
  match r with
  | .emp => .emp
  | .eps => .emp
  | .chr c => if x = c then .eps else .emp
  | .dot => .eps
  | .cls cs => if cs.contains x then .eps else .emp
  | .ralt a b => .ralt (rderiv a x) (rderiv b x)
  | .rcat a b =>
      if nullable a then .ralt (.rcat (rderiv a x) b) (rderiv b x)
      else .rcat (rderiv a x) b
  | .star a => .rcat (rderiv a x) (.star a)

/-- Full (anchored) match of a regex against a string. -/
def matchR (r : Regex) (str : String) : Bool :=
  nullable (str.data.foldl rderiv r)

/-- One-or-more repetition, `r+`. -/
def rplus (r : Regex) : Regex := .rcat r (.star r)

/-- A literal character sequence as a regex. -/
def rseq : List Char → Regex
  | [] => .eps
  | c :: cs => .rcat (.chr c) (rseq cs)

/-- A literal string as a regex. -/
def rlit (str : String) : Regex := rseq str.data

/-- The decimal digit character class `[0-9]`. -/
def digits : List Char := ['0', '1', '2', '3', '4', '5', '6', '7', '8', '9']

/-! ## Constraints and the Type Constraint Engine -/

/-- A non-union constraint attached to a leaf type: no constraint, a
disjunction of closed integer ranges, an anchored pattern (keeping the YANG
source text for violation messages), or a closed enumeration. -/
inductive SimpleConstraint where
  | cnone
  | crange (ivs : List (Int × Int))
  | cpattern (src : String) (r : Regex)
  | cenum (syms : List String)
deriving DecidableEq

/-- Render a disjunctive range the way the YANG models write it,
e.g. `1..5 | 10..15`. -/
def showRanges (ivs : List (Int × Int)) : String :=
  String.intercalate " | " (ivs.map (fun p => toString p.1 ++ ".." ++ toString p.2))

/-- The result of a constraint check: `satisfied`, or a violation with a
human-readable reason. -/
inductive CheckResult where
  | satisfied
  | violation (reason : String)
deriving DecidableEq

/-- Modelled from the spec: the Type Constraint Engine's check of one value
against a non-union constraint.  A range is a disjunction of closed intervals;
a pattern must match the whole string; an enumeration is matched
case-sensitively.  (The evaluator itself lives in the ygot runtime, which is
not part of this repository's sources.) -/
def checkSimple (v : YangValue) (c : SimpleConstraint) : CheckResult :=
  match c with
  | .cnone => .satisfied
  | .crange ivs =>
      match v with
      | .i n =>
          if ivs.any (fun p => decide (p.1 ≤ n) && decide (n ≤ p.2)) then .satisfied
          else .violation ("value " ++ toString n ++ " is outside specified ranges " ++ showRanges ivs)
      | .s str => .violation ("value \"" ++ str ++ "\" is not numeric")
  | .cpattern src r =>
      match v with
      | .s str =>
          if matchR r str then .satisfied
          else .violation ("\"" ++ str ++ "\" does not match regular expression pattern \"^(" ++ src ++ ")$\"")
      | .i n => .violation ("value " ++ toString n ++ " is not a string")
  | .cenum syms =>
      match v with
      | .s str =>
          if syms.contains str then .satisfied
          else .violation ("\"" ++ str ++ "\" is not a member of enumeration \x7b" ++ String.intercalate ", " syms ++ "\x7d")
      | .i n => .violation ("value " ++ toString n ++ " is not a string")

/-- The type of a leaf: a single scalar base type with its constraint, or a
union of alternatives, each an ordered pair of base type and constraint. -/
inductive TypeSpec where
  | scalar (bt : BaseType) (c : SimpleConstraint)
  | tunion (alts : List (BaseType × SimpleConstraint))
deriving DecidableEq

/-- Modelled from the spec: the Type Constraint Engine's `Check`.  A scalar
leaf checks its constraint; a union is satisfied when any alternative whose
base type is compatible with the value has its constraint satisfied, and a
failing union names the attempted alternatives. -/
def Check (v : YangValue) (t : TypeSpec) : CheckResult :=
  match t with
  | .scalar _ c => checkSimple v c
  | .tunion alts =>
      if alts.any (fun a => compatible v a.1 && (checkSimple v a.2 == .satisfied)) then .satisfied
      else .violation ("value does not match any alternative of union (" ++
        String.intercalate ", " (alts.map (fun a => showBase a.1)) ++ ")")

/-- Modelled from the spec: at decode/construction time a raw literal is
assigned to the first union alternative whose base type is compatible with the
literal's syntactic shape; `none` when no alternative is compatible. -/
def unionAssign (v : YangValue) (alts : List (BaseType × SimpleConstraint)) : Option Nat :=
  alts.findIdx? (fun a => compatible v a.1)

/-! ## Concrete constraints of the repository's YANG models -/

/-- The `priority-level` range `1..5 | 10..15` from base.yang. -/
def priorityRange : SimpleConstraint := .crange [(1, 5), (10, 15)]

/-- The `mtu` range `68..9216` from base.yang. -/
def mtuRange : SimpleConstraint := .crange [(68, 9216)]

/-- The `bandwidth` range `1..10000` from augment.yang. -/
def bandwidthRange : SimpleConstraint := .crange [(1, 10000)]

/-- The regex of deviation.yang's pattern `eth[0-9]+|wlan[0-9]+`. -/
def ethWlanRegex : Regex :=
  .ralt (.rcat (rlit "eth") (rplus (.cls digits))) (.rcat (rlit "wlan") (rplus (.cls digits)))

/-- The pattern constraint deviation.yang places on `/interface/name`. -/
def ethWlanPattern : SimpleConstraint := .cpattern "eth[0-9]+|wlan[0-9]+" ethWlanRegex

/-- The regex of augment.yang's pattern `maintenance-.*`. -/
def maintenanceRegex : Regex := .rcat (rlit "maintenance-") (.star .dot)

/-- The `status` union type from augment.yang: an enumeration
`{up, down, testing}` or a `maintenance-.*` string. -/
def statusUnion : TypeSpec :=
  .tunion [(.ystring, .cenum ["up", "down", "testing"]),
           (.ystring, .cpattern "maintenance-.*" maintenanceRegex)]

/-- The regex of the earlier base model's pattern `<.*>|$.*`. -/
def angledDollarRegex : Regex :=
  .ralt (.rcat (.chr '<') (.rcat (.star .dot) (.chr '>'))) (.rcat (.chr '$') (.star .dot))

/-- The `name` union from the earlier base model's `base-container-list-1`:
a `<.*>|$.*` string or a `uint32` in `0..1073741823`. -/
def listNameUnion : TypeSpec :=
  .tunion [(.ystring, .cpattern "<.*>|$.*" angledDollarRegex),
           (.yint false 32, .crange [(0, 1073741823)])]

/-! ## Schema trees -/

mutual
/-- A compiled schema element: a leaf with its type, or a container with an
ordered list of children.  (The repository's models use only these two kinds
at the paths the properties exercise.) -/
inductive SchemaNode where
  | leaf (name : String) (ty : TypeSpec)
  | container (name : String) (children : SchemaChildren)
deriving DecidableEq

/-- The ordered children of a container. -/
inductive SchemaChildren where
  | nil
  | cons (n : SchemaNode) (rest : SchemaChildren)
deriving DecidableEq
end

/-- The name of a schema node. -/
def nodeName : SchemaNode → String
  | .leaf n _ => n
  | .container n _ => n

/-- Whether a schema node is a leaf (its kind). -/
def isLeaf : SchemaNode → Bool
  | .leaf _ _ => true
  | .container _ _ => false

/-- Look a child up by name among a container's children. -/
def findChild (k : String) : SchemaChildren → Option SchemaNode
  | .nil => none
  | .cons n rest => if nodeName n = k then some n else findChild k rest

/-- The list of children names of a container, in order. -/
def childNames : SchemaChildren → List String
  | .nil => []
  | .cons n rest => nodeName n :: childNames rest

/-- Resolve a path (a list of child names below the given node) to the schema
node it denotes, if any. -/
def resolve (s : SchemaNode) : List String → Option SchemaNode
  | [] => some s
  | p :: ps =>
      match s with
      | .leaf _ _ => none
      | .container _ ch =>
          match findChild p ch with
          | some c => resolve c ps
          | none => none

/-- Schema-build-time failures, per the builder contract. -/
inductive BuildErr where
  | unknownTarget
  | duplicateChild
deriving DecidableEq

mutual
/-- Modelled from the spec: applying one deviation — replace the type facet of
the leaf at the target path, leaving name, kind and position unchanged; fails
with `UnknownTarget` when the path does not resolve to a leaf.  (The deviation
machinery lives in the goyang/ygot toolchain, which is not part of this
repository's sources.) -/
def applyDeviation (s : SchemaNode) (path : List String) (nty : TypeSpec) :
    Except BuildErr SchemaNode :=
  match path with
  | [] =>
      match s with
      | .leaf n _ => .ok (.leaf n nty)
      | .container _ _ => .error .unknownTarget
  | p :: ps =>
      match s with
      | .leaf _ _ => .error .unknownTarget
      | .container n ch =>
          match applyDeviationChildren ch p ps nty with
          | .ok ch2 => .ok (.container n ch2)
          | .error e => .error e

/-- Apply a deviation inside a child list: recurse into the child named `p`. -/
def applyDeviationChildren (ch : SchemaChildren) (p : String) (ps : List String)
    (nty : TypeSpec) : Except BuildErr SchemaChildren :=
  match ch with
  | .nil => .error .unknownTarget
  | .cons c rest =>
      if nodeName c = p then
        match applyDeviation c ps nty with
        | .ok c2 => .ok (.cons c2 rest)
        | .error e => .error e
      else
        match applyDeviationChildren rest p ps nty with
        | .ok rest2 => .ok (.cons c rest2)
        | .error e => .error e
end

/-- Append one node at the end of a child list. -/
def appendChild (ch : SchemaChildren) (c : SchemaNode) : SchemaChildren :=
  match ch with
  | .nil => .cons c .nil
  | .cons n rest => .cons n (appendChild rest c)

mutual
/-- Modelled from the spec: applying one augmentation — insert a new child
under the container at the target path; fails with `UnknownTarget` when the
path does not resolve to a container and with `DuplicateChild` when the new
child's name collides with an existing child. -/
def applyAugment (s : SchemaNode) (path : List String) (child : SchemaNode) :
    Except BuildErr SchemaNode :=
  match path with
  | [] =>
      match s with
      | .leaf _ _ => .error .unknownTarget
      | .container n ch =>
          if (childNames ch).contains (nodeName child) then .error .duplicateChild
          else .ok (.container n (appendChild ch child))
  | p :: ps =>
      match s with
      | .leaf _ _ => .error .unknownTarget
      | .container n ch =>
          match applyAugmentChildren ch p ps child with
          | .ok ch2 => .ok (.container n ch2)
          | .error e => .error e

/-- Apply an augmentation inside a child list: recurse into the child named `p`. -/
def applyAugmentChildren (ch : SchemaChildren) (p : String) (ps : List String)
    (child : SchemaNode) : Except BuildErr SchemaChildren :=
  match ch with
  | .nil => .error .unknownTarget
  | .cons c rest =>
      if nodeName c = p then
        match applyAugment c ps child with
        | .ok c2 => .ok (.cons c2 rest)
        | .error e => .error e
      else
        match applyAugmentChildren rest p ps child with
        | .ok rest2 => .ok (.cons c rest2)
        | .error e => .error e
end

/-- A deviation records its target path and the replacement type. -/
structure Deviation where
  path : List String
  nty : TypeSpec

/-- An augmentation records its target container path and the inserted child. -/
structure Augmentation where
  path : List String
  child : SchemaNode

/-- Modelled from the spec: `Build` compiles the base tree, then applies every
deviation, then every augmentation, stopping at the first build error, in
which case no schema tree is produced. -/
def Build (base : SchemaNode) (devs : List Deviation) (augs : List Augmentation) :
    Except BuildErr SchemaNode := do
  let afterDevs ← devs.foldlM (fun acc d => applyDeviation acc d.path d.nty) base
  augs.foldlM (fun acc a => applyAugment acc a.path a.child) afterDevs

/-! ### The repository's concrete schemas -/

/-- The `interface` container of base.yang: leaves `name` (string), `mtu`
(uint16, range 68..9216) and `priority` (uint8, range 1..5 | 10..15). -/
def interfaceBase : SchemaNode :=
  .container "interface"
    (.cons (.leaf "name" (.scalar .ystring .cnone))
      (.cons (.leaf "mtu" (.scalar (.yint false 16) mtuRange))
        (.cons (.leaf "priority" (.scalar (.yint false 8) priorityRange)) .nil)))

/-- The generated fake root `Device` holding the `interface` container. -/
def deviceSchema : SchemaNode := .container "device" (.cons interfaceBase .nil)

/-- The deviation of deviation.yang: replace `/interface/name`'s type with the
pattern-restricted string. -/
def nameDeviation : Deviation :=
  ⟨["interface", "name"], .scalar .ystring ethWlanPattern⟩

/-- The `status` leaf inserted by augment.yang. -/
def statusLeaf : SchemaNode := .leaf "status" statusUnion

/-- The `bandwidth` leaf inserted by augment.yang. -/
def bandwidthLeaf : SchemaNode := .leaf "bandwidth" (.scalar (.yint false 32) bandwidthRange)

/-- The schema after applying the name deviation to the base device schema. -/
def deviatedSchema : SchemaNode :=
  .container "device"
    (.cons (.container "interface"
      (.cons (.leaf "name" (.scalar .ystring ethWlanPattern))
        (.cons (.leaf "mtu" (.scalar (.yint false 16) mtuRange))
          (.cons (.leaf "priority" (.scalar (.yint false 8) priorityRange)) .nil)))) .nil)

/-- The fully built schema: base, then the name deviation, then the `status`
and `bandwidth` augmentations. -/
def fullSchema : SchemaNode :=
  .container "device"
    (.cons (.container "interface"
      (.cons (.leaf "name" (.scalar .ystring ethWlanPattern))
        (.cons (.leaf "mtu" (.scalar (.yint false 16) mtuRange))
          (.cons (.leaf "priority" (.scalar (.yint false 8) priorityRange))
            (.cons statusLeaf (.cons bandwidthLeaf .nil)))))) .nil)

/-! ## Data trees -/

mutual
/-- The runtime instance tree: a present leaf value, or an inner node whose
entries mirror a container's children.  An optional leaf that is not set is
simply absent from its parent's entries. -/
inductive DataTree where
  | leafV (v : YangValue)
  | node (es : Entries)
deriving DecidableEq

/-- The named entries of an inner data node, in order. -/
inductive Entries where
  | nil
  | cons (k : String) (t : DataTree) (rest : Entries)
deriving DecidableEq
end

mutual
/-- Whether a data tree is shaped and typed by a schema node: a present leaf
value is compatible with the leaf's type (for a union, with some
alternative's base type), and every entry of an inner node corresponds by
name to a schema child that types the entry's subtree. -/
def wtNode (t : DataTree) (s : SchemaNode) : Bool :=
  match t, s with
  | .leafV v, .leaf _ ty =>
      match ty with
      | .scalar bt _ => compatible v bt
      | .tunion alts => alts.any (fun a => compatible v a.1)
  | .node es, .container _ ch => wtEntries es ch
  | _, _ => false

/-- Whether every entry is typed by the schema child of the same name. -/
def wtEntries (es : Entries) (ch : SchemaChildren) : Bool :=
  match es with
  | .nil => true
  | .cons k t rest =>
      match findChild k ch with
      | some c => wtNode t c && wtEntries rest ch
      | none => false
end

/-! ## Validator -/

/-- A validation violation: the full path to the offending leaf and a
human-readable reason. -/
structure Violation where
  path : List String
  reason : String
deriving DecidableEq

mutual
/-- Modelled from the spec: the Validator's walk.  Every present leaf value is
checked against its schema node's type; violations are collected across the
whole tree, each annotated with the full path to the offending leaf.  A present
value whose name has no schema child is skipped (the validator checks
constraints, not shape).  (The walking validator lives in the ygot runtime,
which is not part of this repository's sources.) -/
def validateNode (path : List String) (t : DataTree) (s : SchemaNode) : List Violation :=
  match t, s with
  | .leafV v, .leaf n ty =>
      match Check v ty with
      | .satisfied => []
      | .violation r => [⟨path ++ [n], r⟩]
  | .node es, .container n ch => validateEntries (path ++ [n]) es ch
  | _, _ => []

/-- Validate each entry against the schema child of the same name. -/
def validateEntries (path : List String) (es : Entries) (ch : SchemaChildren) :
    List Violation :=
  match es with
  | .nil => []
  | .cons k t rest =>
      (match findChild k ch with
       | some c => validateNode path t c
       | none => []) ++ validateEntries path rest ch
end

/-- Modelled from the spec: `Validate` walks a whole data tree from the root
against its schema tree and returns the collected violations (empty = valid). -/
def Validate (t : DataTree) (s : SchemaNode) : List Violation :=
  validateNode [] t s

mutual
/-- The number of present leaf values in a data tree that fail their schema
node's check (the tree's failure count, independent of how the validator
collects violations). -/
def failCount (t : DataTree) (s : SchemaNode) : Nat :=
  match t, s with
  | .leafV v, .leaf _ ty => if Check v ty = .satisfied then 0 else 1
  | .node es, .container _ ch => failCountEntries es ch
  | _, _ => 0

/-- The failure count across a node's entries. -/
def failCountEntries (es : Entries) (ch : SchemaChildren) : Nat :=
  match es with
  | .nil => 0
  | .cons k t rest =>
      (match findChild k ch with
       | some c => failCount t c
       | none => 0) + failCountEntries rest ch
end

mutual
/-- The paths (relative to `path`) of the present leaf values of a data tree,
as named by their schema nodes. -/
def presentPaths (path : List String) (t : DataTree) (s : SchemaNode) :
    List (List String) :=
  match t, s with
  | .leafV _, .leaf n _ => [path ++ [n]]
  | .node es, .container n ch => presentPathsEntries (path ++ [n]) es ch
  | _, _ => []

/-- The present-leaf paths across a node's entries. -/
def presentPathsEntries (path : List String) (es : Entries) (ch : SchemaChildren) :
    List (List String) :=
  match es with
  | .nil => []
  | .cons k t rest =>
      (match findChild k ch with
       | some c => presentPaths path t c
       | none => []) ++ presentPathsEntries path rest ch
end

/-! ## JSON and the Codec -/

mutual
/-- A JSON value: `null`, a string, an integer, or an object with ordered
fields.  (`null` exists in the wire format; the encoder must never produce
it for an absent leaf.) -/
inductive Json where
  | null
  | str (s : String)
  | num (n : Int)
  | obj (fs : JFields)
deriving DecidableEq

/-- The ordered fields of a JSON object. -/
inductive JFields where
  | nil
  | cons (k : String) (v : Json) (rest : JFields)
deriving DecidableEq
end

/-- The keys of a JSON object's field list, in order. -/
def fieldKeys : JFields → List String
  | .nil => []
  | .cons k _ rest => k :: fieldKeys rest

/-- The names of a data node's entries, in order (its present children). -/
def entryNames : Entries → List String
  | .nil => []
  | .cons k _ rest => k :: entryNames rest

mutual
/-- Whether `null` appears nowhere in a JSON value. -/
def noNull : Json → Bool
  | .null => false
  | .str _ => true
  | .num _ => true
  | .obj fs => noNullFields fs

/-- Whether `null` appears nowhere in a field list. -/
def noNullFields : JFields → Bool
  | .nil => true
  | .cons _ v rest => noNull v && noNullFields rest
end

mutual
/-- Modelled from the spec: the Codec's encode path.  One JSON object per
inner node, one key per present entry; a present string leaf becomes a JSON
string and a present integer leaf a bare number; absent leaves produce no key
at all.  (JSON emission lives in the ygot runtime, which is not part of this
repository's sources.) -/
def Encode (t : DataTree) : Json :=
  match t with
  | .leafV (.s v) => .str v
  | .leafV (.i v) => .num v
  | .node es => .obj (encodeEntries es)

/-- Encode each present entry as one JSON field. -/
def encodeEntries (es : Entries) : JFields :=
  match es with
  | .nil => .nil
  | .cons k t rest => .cons k (Encode t) (encodeEntries rest)
end

/-- Decode-time failures, per the codec contract. -/
inductive DecodeErr where
  | unknownField (path : List String)
  | typeMismatch (path : List String)
deriving DecidableEq

mutual
/-- Modelled from the spec: the Codec's decode path.  Walk the JSON object
tree top-down matching keys to schema child names (`UnknownField` on a key
with no schema child); convert each scalar to the schema leaf's declared base
type (`TypeMismatch` when the shapes disagree, naming the offending path); a
union leaf accepts a literal exactly when some alternative's base type is
compatible with its shape.  (The decoder lives in the ygot runtime, which is
not part of this repository's sources.) -/
def Decode (j : Json) (s : SchemaNode) (path : List String) :
    Except DecodeErr DataTree :=
  match s with
  | .leaf n ty =>
      match j, ty with
      | .str v, .scalar .ystring _ => .ok (.leafV (.s v))
      | .num v, .scalar (.yint sg w) _ =>
          if intFits sg w v then .ok (.leafV (.i v)) else .error (.typeMismatch (path ++ [n]))
      | .str v, .tunion alts =>
          match unionAssign (.s v) alts with
          | some _ => .ok (.leafV (.s v))
          | none => .error (.typeMismatch (path ++ [n]))
      | .num v, .tunion alts =>
          match unionAssign (.i v) alts with
          | some _ => .ok (.leafV (.i v))
          | none => .error (.typeMismatch (path ++ [n]))
      | _, _ => .error (.typeMismatch (path ++ [n]))
  | .container n ch =>
      match j with
      | .obj fs =>
          match decodeFields fs ch (path ++ [n]) with
          | .ok es => .ok (.node es)
          | .error e => .error e
      | _ => .error (.typeMismatch (path ++ [n]))

/-- Decode each JSON field against the schema child of the same name. -/
def decodeFields (fs : JFields) (ch : SchemaChildren) (path : List String) :
    Except DecodeErr Entries :=
  match fs with
  | .nil => .ok .nil
  | .cons k v rest =>
      match findChild k ch with
      | none => .error (.unknownField (path ++ [k]))
      | some c =>
          match Decode v c path with
          | .error e => .error e
          | .ok t =>
              match decodeFields rest ch path with
              | .error e => .error e
              | .ok es => .ok (.cons k t es)
end

/-! ## JSON text parsing and the generated `Unmarshal` wrapper -/

/-- Drop leading JSON whitespace. -/
def skipWs : List Char → List Char
  | [] => []
  | c :: cs => if c = ' ' ∨ c = '\n' ∨ c = '\t' ∨ c = '\r' then skipWs cs else c :: cs

/-- Read a string body up to the closing quote (no escape sequences, which the
repository's inputs never use). -/
def parseStringBody : List Char → Except String (List Char × List Char)
  | [] => .error "unexpected end of JSON input"
  | c :: cs =>
      if c = '"' then .ok ([], cs)
      else
        match parseStringBody cs with
        | .ok (body, rest) => .ok (c :: body, rest)
        | .error e => .error e

/-- Read a run of decimal digits, accumulating their value. -/
def parseDigits (acc : Nat) : List Char → Nat × List Char
  | [] => (acc, [])
  | c :: cs =>
      if c.isDigit then parseDigits (acc * 10 + (c.toNat - '0'.toNat)) cs
      else (acc, c :: cs)

/-- Read an integer: an optional minus sign then at least one digit. -/
def parseIntLit : List Char → Except String (Int × List Char)
  | [] => .error "unexpected end of JSON input"
  | c :: cs =>
      if c = '-' then
        match cs with
        | d :: _ =>
            if d.isDigit then
              let (n, rest) := parseDigits 0 cs
              .ok (-(n : Int), rest)
            else .error "invalid character in number"
        | [] => .error "unexpected end of JSON input"
      else if c.isDigit then
        let (n, rest) := parseDigits 0 (c :: cs)
        .ok ((n : Int), rest)
      else .error "invalid character looking for beginning of value"

mutual
/-- Modelled from the spec's external JSON interface: a recursive-descent
reader for the JSON subset the repository's wire format uses (objects,
strings, integers, `null`), standing in for the standard library's JSON
decoder, which is not part of this repository's sources.  Fuel bounds the
recursion by the input length. -/
def parseValue (fuel : Nat) (cs : List Char) : Except String (Json × List Char) :=
  match fuel with
  | 0 => .error "exceeded max depth"
  | fuel + 1 =>
      match skipWs cs with
      | [] => .error "unexpected end of JSON input"
      | c :: rest =>
          if c = '\x7b' then
            match skipWs rest with
            | '\x7d' :: r2 => .ok (.obj .nil, r2)
            | r2 =>
                match parseFields fuel r2 with
                | .ok (fs, r3) => .ok (.obj fs, r3)
                | .error e => .error e
          else if c = '"' then
            match parseStringBody rest with
            | .ok (body, r2) => .ok (.str (String.mk body), r2)
            | .error e => .error e
          else if c = 'n' then
            match rest with
            | 'u' :: 'l' :: 'l' :: r2 => .ok (.null, r2)
            | _ => .error "invalid character looking for beginning of value"
          else
            match parseIntLit (c :: rest) with
            | .ok (n, r2) => .ok (.num n, r2)
            | .error e => .error e

/-- Read one or more `"key": value` fields followed by `}`. -/
def parseFields (fuel : Nat) (cs : List Char) : Except String (JFields × List Char) :=
  match fuel with
  | 0 => .error "exceeded max depth"
  | fuel + 1 =>
      match skipWs cs with
      | '"' :: rest =>
          match parseStringBody rest with
          | .error e => .error e
          | .ok (key, r2) =>
              match skipWs r2 with
              | ':' :: r3 =>
                  match parseValue fuel r3 with
                  | .error e => .error e
                  | .ok (v, r4) =>
                      match skipWs r4 with
                      | ',' :: r5 =>
                          match parseFields fuel r5 with
                          | .ok (fs, r6) => .ok (.cons (String.mk key) v fs, r6)
                          | .error e => .error e
                      | '\x7d' :: r5 => .ok (.cons (String.mk key) v .nil, r5)
                      | _ => .error "invalid character after object key:value pair"
              | _ => .error "invalid character after object key"
      | _ => .error "invalid character looking for beginning of object key string"
end

/-- Parse a whole JSON document: one value followed only by whitespace. -/
def parseJson (data : String) : Except String Json :=
  match parseValue (data.length + 1) data.data with
  | .error e => .error e
  | .ok (j, rest) =>
      match skipWs rest with
      | [] => .ok j
      | _ => .error "invalid character after top-level value"

/-- Render a decode error the way the runtime reports it. -/
def showDecodeErr : DecodeErr → String
  | .unknownField p => "parent container (field " ++ String.intercalate "/" p ++ "): JSON contains unexpected field"
  | .typeMismatch p => "got unexpected type at " ++ String.intercalate "/" p

/-- The `emptyBranchTestOne` schema entry registered by the repository's
inlined generated code: one container with a single string leaf `string`. -/
def emptyBranchTestOne : SchemaNode :=
  .container "empty-branch-test-one"
    (.cons (.leaf "string" (.scalar .ystring .cnone)) .nil)

/-- The `SchemaTree` map of the repository's inlined generated code, keyed by
Go type name. -/
def SchemaTree : List (String × SchemaNode) :=
  [("emptyBranchTestOne", emptyBranchTestOne)]

/-- The repository's `Unmarshal` wrapper: look the destination's type name up
in `SchemaTree` (error naming the type when missing), then parse the JSON text
(returning the parse error), then decode into the destination.  The returned
pair is (error, destination after the call): on any error the destination is
returned unchanged. -/
def Unmarshal (data : String) (tn : String) (dest : DataTree) :
    Option String × DataTree :=
  match SchemaTree.lookup tn with
  | none => (some ("could not find schema for type " ++ tn), dest)
  | some schema =>
      match parseJson data with
      | .error e => (some e, dest)
      | .ok j =>
          match Decode j schema [] with
          | .error e => (some (showDecodeErr e), dest)
          | .ok t => (none, t)

/-! ## Theorems: the Type Constraint Engine -/

/-- C2: for the range constraint `[1,5] ∪ [10,15]`, `Check` is satisfied at 3
and 12 and violated at 7 and 25, and in general a range check is satisfied
exactly when the value lies inside at least one declared closed interval. -/
theorem check_range_disjunction :
    (∀ (bt : BaseType) (n : Int) (ivs : List (Int × Int)),
      Check (.i n) (.scalar bt (.crange ivs)) = .satisfied ↔
        ∃ p ∈ ivs, p.1 ≤ n ∧ n ≤ p.2) ∧
    Check (.i 3) (.scalar (.yint false 8) priorityRange) = .satisfied ∧
    Check (.i 7) (.scalar (.yint false 8) priorityRange) =
      .violation "value 7 is outside specified ranges 1..5 | 10..15" ∧
    Check (.i 12) (.scalar (.yint false 8) priorityRange) = .satisfied ∧
    Check (.i 25) (.scalar (.yint false 8) priorityRange) =
      .violation "value 25 is outside specified ranges 1..5 | 10..15" := by
  refine ⟨?_, by decide, by decide, by decide, by decide⟩
  intro bt n ivs
  constructor
  · intro h
    by_cases hc : ivs.any (fun p => decide (p.1 ≤ n) && decide (n ≤ p.2)) = true
    · rw [List.any_eq_true] at hc
      obtain ⟨p, hp, hpc⟩ := hc
      have hpc2 : p.1 ≤ n ∧ n ≤ p.2 := by simpa using hpc
      exact ⟨p, hp, hpc2.1, hpc2.2⟩
    · exfalso
      simp [Check, checkSimple, hc] at h
  · intro hex
    obtain ⟨p, hp, h1, h2⟩ := hex
    have hc : ivs.any (fun p => decide (p.1 ≤ n) && decide (n ≤ p.2)) = true := by
      rw [List.any_eq_true]
      exact ⟨p, hp, by simp [h1, h2]⟩
    simp [Check, checkSimple, hc]

/-- C3: the pattern `eth[0-9]+|wlan[0-9]+` is implicitly anchored at both
ends: `eth0` and `wlan1` satisfy it, `lo0` and `eth0x` violate it, even
though `eth0x` contains the matching substring `eth0` — so a pattern check
matches the entire value, never a substring. -/
theorem check_pattern_anchoring :
    Check (.s "eth0") (.scalar .ystring ethWlanPattern) = .satisfied ∧
    Check (.s "wlan1") (.scalar .ystring ethWlanPattern) = .satisfied ∧
    Check (.s "lo0") (.scalar .ystring ethWlanPattern) =
      .violation "\"lo0\" does not match regular expression pattern \"^(eth[0-9]+|wlan[0-9]+)$\"" ∧
    Check (.s "eth0x") (.scalar .ystring ethWlanPattern) =
      .violation "\"eth0x\" does not match regular expression pattern \"^(eth[0-9]+|wlan[0-9]+)$\"" ∧
    "eth0x" = "eth0" ++ "x" ∧
    matchR ethWlanRegex "eth0" = true ∧
    matchR ethWlanRegex "eth0x" = false := by
  refine ⟨by decide, by decide, by decide, by decide, by decide, by decide, by decide⟩

/-- The function List.findIdx? returns the index of the first element satisfying the
predicate: the element there satisfies it and every earlier element fails it. -/
theorem findIdx?_first {α : Type} (l : List α) (p : α → Bool) :
    ∀ k : Nat, l.findIdx? p = some k →
      ∃ a, l[k]? = some a ∧ p a = true ∧
        ∀ j, j < k → ∀ b, l[j]? = some b → p b = false := by
  induction l with
  | nil => intro k h; simp at h
  | cons x xs ih =>
      intro k h
      rw [List.findIdx?_cons] at h
      by_cases hx : p x = true
      · rw [if_pos hx] at h
        obtain rfl : k = 0 := by simpa using h.symm
        exact ⟨x, by simp, hx, fun j hj => absurd hj (Nat.not_lt_zero j)⟩
      · rw [if_neg hx, List.findIdx?_succ] at h
        obtain ⟨k2, hk2, rfl⟩ : ∃ k2, xs.findIdx? p = some k2 ∧ k = k2 + 1 := by
          cases hfi : xs.findIdx? p with
          | none => rw [hfi] at h; simp at h
          | some k2 =>
              rw [hfi] at h
              exact ⟨k2, rfl, by simpa using h.symm⟩
        obtain ⟨a, ha, hpa, hfirst⟩ := ih k2 hk2
        refine ⟨a, by simpa using ha, hpa, ?_⟩
        intro j hj b hb
        cases j with
        | zero =>
            obtain rfl : x = b := by simpa using hb
            simpa using hx
        | succ j2 =>
            exact hfirst j2 (Nat.lt_of_succ_lt_succ hj) b (by simpa using hb)

/-- C4: a union check is satisfied exactly when some alternative whose base
type is compatible with the value has its constraint satisfied, and a raw
literal is assigned to the first alternative whose base type is compatible
with its syntactic shape (every earlier alternative being incompatible). -/
theorem union_check_first_match :
    (∀ (v : YangValue) (alts : List (BaseType × SimpleConstraint)),
      Check v (.tunion alts) = .satisfied ↔
        ∃ a ∈ alts, compatible v a.1 = true ∧ checkSimple v a.2 = .satisfied) ∧
    (∀ (v : YangValue) (alts : List (BaseType × SimpleConstraint)) (k : Nat),
      unionAssign v alts = some k →
        ∃ a, alts[k]? = some a ∧ compatible v a.1 = true ∧
          ∀ j, j < k → ∀ b, alts[j]? = some b → compatible v b.1 = false) := by
  constructor
  · intro v alts
    constructor
    · intro h
      by_cases hc : alts.any (fun a => compatible v a.1 && (checkSimple v a.2 == .satisfied)) = true
      · rw [List.any_eq_true] at hc
        obtain ⟨a, ha, hac⟩ := hc
        have hac2 : compatible v a.1 = true ∧ checkSimple v a.2 = .satisfied := by
          simpa using hac
        exact ⟨a, ha, hac2.1, hac2.2⟩
      · exfalso
        simp [Check, hc] at h
    · intro hex
      obtain ⟨a, ha, h1, h2⟩ := hex
      have hc : alts.any (fun a => compatible v a.1 && (checkSimple v a.2 == .satisfied)) = true := by
        rw [List.any_eq_true]
        exact ⟨a, ha, by simp [h1, h2]⟩
      simp [Check, hc]
  · intro v alts k h
    exact findIdx?_first alts _ k h

/-- Witness for C4: the integer literal 5 checked against the earlier base
model's list-name union (pattern string, then ranged uint32) is assigned to
alternative 1: the uint32 alternative is compatible and the string alternative
before it is not. -/
theorem union_check_first_match_witness :
    ∃ a, ([(BaseType.ystring, SimpleConstraint.cpattern "<.*>|$.*" angledDollarRegex),
           (BaseType.yint false 32, SimpleConstraint.crange [(0, 1073741823)])][1]? = some a) ∧
      compatible (.i 5) a.1 = true ∧
      ∀ j, j < 1 → ∀ b,
        ([(BaseType.ystring, SimpleConstraint.cpattern "<.*>|$.*" angledDollarRegex),
          (BaseType.yint false 32, SimpleConstraint.crange [(0, 1073741823)])][j]? = some b) →
        compatible (.i 5) b.1 = false :=
  union_check_first_match.2 (.i 5) _ 1 (by decide)

/-! ## Theorems: Codec encoding -/

mutual
/-- Encoding never produces a JSON `null` anywhere in its output. -/
theorem noNull_Encode : ∀ t : DataTree, noNull (Encode t) = true
  | .leafV (.s _) => rfl
  | .leafV (.i _) => rfl
  | .node es => by
      simp only [Encode, noNull]
      exact noNullFields_encodeEntries es

/-- Encoding a node's entries never produces a JSON `null`. -/
theorem noNullFields_encodeEntries : ∀ es : Entries, noNullFields (encodeEntries es) = true
  | .nil => rfl
  | .cons _ t rest => by
      simp only [encodeEntries, noNullFields]
      rw [noNull_Encode t, noNullFields_encodeEntries rest]
      rfl
end

/-- The encoded object's keys are exactly the names of the present entries. -/
theorem fieldKeys_encodeEntries : ∀ es : Entries, fieldKeys (encodeEntries es) = entryNames es
  | .nil => rfl
  | .cons _ _ rest => by
      simp only [encodeEntries, fieldKeys, entryNames]
      rw [fieldKeys_encodeEntries rest]

/-- C8: `Encode` emits one JSON key per present entry — the emitted keys are
exactly the names of the present children, so every absent optional leaf is
omitted — and `null` never appears anywhere in the encoder's output. -/
theorem encode_omits_absent :
    (∀ es : Entries, fieldKeys (encodeEntries es) = entryNames es) ∧
    (∀ t : DataTree, noNull (Encode t) = true) :=
  ⟨fieldKeys_encodeEntries, noNull_Encode⟩

/-! ## Theorems: Validator -/

mutual
/-- The validator returns one violation per failing present leaf: the length
of its output equals the tree's failure count. -/
theorem validateNode_length : ∀ (path : List String) (t : DataTree) (s : SchemaNode),
    (validateNode path t s).length = failCount t s
  | _, .leafV v, .leaf _ ty => by
      simp only [validateNode, failCount]
      cases h : Check v ty <;> simp [h]
  | _, .leafV _, .container _ _ => rfl
  | _, .node _, .leaf _ _ => rfl
  | path, .node es, .container n ch => by
      simp only [validateNode, failCount]
      exact validateEntries_length (path ++ [n]) es ch

/-- The validator's output length across entries equals their failure count. -/
theorem validateEntries_length : ∀ (path : List String) (es : Entries) (ch : SchemaChildren),
    (validateEntries path es ch).length = failCountEntries es ch
  | _, .nil, _ => rfl
  | path, .cons k t rest, ch => by
      simp only [validateEntries, failCountEntries, List.length_append]
      cases hf : findChild k ch with
      | none => simp [validateEntries_length path rest ch]
      | some c => simp [validateNode_length path t c, validateEntries_length path rest ch]
end

/-- The data tree of `{ "interface": { "priority": 7, "bandwidth": 20000 }}`:
two independently invalid present leaves. -/
def badTree : DataTree :=
  .node (.cons "interface"
    (.node (.cons "priority" (.leafV (.i 7))
      (.cons "bandwidth" (.leafV (.i 20000)) .nil))) .nil)

/-- C6: `Validate` never stops at the first violation: its output has exactly
one violation per failing present leaf (so it is the complete collection), and
the two-bad-leaf tree (`priority=7`, `bandwidth=20000`) yields exactly the two
violations, each annotated with the full path to the offending leaf. -/
theorem validator_aggregation :
    (∀ (path : List String) (t : DataTree) (s : SchemaNode),
      (validateNode path t s).length = failCount t s) ∧
    Validate badTree fullSchema =
      [⟨["device", "interface", "priority"], "value 7 is outside specified ranges 1..5 | 10..15"⟩,
       ⟨["device", "interface", "bandwidth"], "value 20000 is outside specified ranges 1..10000"⟩] :=
  ⟨validateNode_length, by decide⟩

mutual
/-- Every violation the validator reports is annotated with the path of a
present leaf value of the data tree. -/
theorem validateNode_path_present :
    ∀ (path : List String) (t : DataTree) (s : SchemaNode) (v : Violation),
      v ∈ validateNode path t s → v.path ∈ presentPaths path t s
  | path, .leafV w, .leaf n ty, v, hv => by
      simp only [validateNode] at hv
      cases h : Check w ty with
      | satisfied => rw [h] at hv; simp at hv
      | violation r =>
          rw [h] at hv
          simp only [List.mem_singleton] at hv
          subst hv
          simp [presentPaths]
  | _, .leafV _, .container _ _, v, hv => by simp [validateNode] at hv
  | _, .node _, .leaf _ _, v, hv => by simp [validateNode] at hv
  | path, .node es, .container n ch, v, hv => by
      simp only [validateNode] at hv
      simp only [presentPaths]
      exact validateEntries_path_present (path ++ [n]) es ch v hv

/-- Every violation reported across a node's entries is annotated with the
path of a present leaf value. -/
theorem validateEntries_path_present :
    ∀ (path : List String) (es : Entries) (ch : SchemaChildren) (v : Violation),
      v ∈ validateEntries path es ch → v.path ∈ presentPathsEntries path es ch
  | _, .nil, _, v, hv => by simp [validateEntries] at hv
  | path, .cons k t rest, ch, v, hv => by
      simp only [validateEntries] at hv
      simp only [presentPathsEntries]
      rw [List.mem_append] at hv ⊢
      cases hf : findChild k ch with
      | none =>
          rw [hf] at hv
          simp only [List.not_mem_nil, false_or] at hv
          exact Or.inr (validateEntries_path_present path rest ch v hv)
      | some c =>
          rw [hf] at hv
          cases hv with
          | inl h => exact Or.inl (validateNode_path_present path t c v h)
          | inr h => exact Or.inr (validateEntries_path_present path rest ch v h)
end

/-- The data tree of `{ "interface": { "name": "lo0" }}`. -/
def lo0Tree : DataTree :=
  .node (.cons "interface" (.node (.cons "name" (.leafV (.s "lo0")) .nil)) .nil)

/-- The data tree of `{ "interface": { "name": "eth0" }}`: only `name` is
set; `mtu`, `priority`, `status` and `bandwidth` are all absent. -/
def partialTree : DataTree :=
  .node (.cons "interface" (.node (.cons "name" (.leafV (.s "eth0")) .nil)) .nil)

/-- C9: absence is never a violation — every violation path the validator
reports is the path of a *present* leaf value, and a tree with only some
leaves set whose present values are all in range validates with an empty
violation list. -/
theorem absence_never_violation :
    (∀ (path : List String) (t : DataTree) (s : SchemaNode),
      (validateNode path t s).map Violation.path ⊆ presentPaths path t s) ∧
    Validate partialTree fullSchema = [] := by
  constructor
  · intro path t s q hq
    rw [List.mem_map] at hq
    obtain ⟨v, hv, rfl⟩ := hq
    exact validateNode_path_present path t s v hv
  · decide

/-- Witness for C9: the one violation of the `lo0` tree under the deviated
schema points at the present leaf `/device/interface/name`. -/
theorem absence_never_violation_witness :
    ["device", "interface", "name"] ∈ presentPaths [] lo0Tree deviatedSchema :=
  absence_never_violation.1 [] lo0Tree deviatedSchema (by decide)

/-! ## Theorems: Schema Tree Builder (deviation) -/

/-- Applying a deviation preserves the node's own name (and, trivially on the
top constructor, its kind). -/
theorem nodeName_applyDeviation : ∀ (s : SchemaNode) (p : List String) (nty : TypeSpec)
    (s2 : SchemaNode), applyDeviation s p nty = .ok s2 → nodeName s2 = nodeName s := by
  intro s p nty s2 h
  cases p with
  | nil =>
      cases s with
      | leaf n ty =>
          simp only [applyDeviation] at h
          injection h with h2
          subst h2
          rfl
      | container n ch => simp [applyDeviation] at h
  | cons a ps =>
      cases s with
      | leaf n ty => simp [applyDeviation] at h
      | container n ch =>
          simp only [applyDeviation] at h
          cases hc : applyDeviationChildren ch a ps nty with
          | error e => rw [hc] at h; simp at h
          | ok ch2 =>
              rw [hc] at h
              injection h with h2
              subst h2
              rfl

/-- Applying a deviation inside a child list rewrites exactly the child named
`p` (which must exist) and leaves every other name's lookup unchanged. -/
theorem applyDevCh_spec : ∀ (ch : SchemaChildren) (p : String) (ps : List String)
    (nty : TypeSpec) (ch2 : SchemaChildren),
    applyDeviationChildren ch p ps nty = .ok ch2 →
      (∃ c c2, findChild p ch = some c ∧ applyDeviation c ps nty = .ok c2 ∧
        findChild p ch2 = some c2) ∧
      (∀ x, x ≠ p → findChild x ch2 = findChild x ch)
  | .nil, p, ps, nty, ch2, h => by simp [applyDeviationChildren] at h
  | .cons c rest, p, ps, nty, ch2, h => by
      simp only [applyDeviationChildren] at h
      by_cases hn : nodeName c = p
      · rw [if_pos hn] at h
        cases hd : applyDeviation c ps nty with
        | error e => rw [hd] at h; simp at h
        | ok c2 =>
            rw [hd] at h
            injection h with h2
            subst h2
            have hnc2 : nodeName c2 = nodeName c := nodeName_applyDeviation c ps nty c2 hd
            constructor
            · exact ⟨c, c2, by simp [findChild, hn], hd, by simp [findChild, hnc2, hn]⟩
            · intro x hx
              have hne : ¬ nodeName c2 = x := by rw [hnc2, hn]; exact fun hh => hx hh.symm
              have hne2 : ¬ nodeName c = x := by rw [hn]; exact fun hh => hx hh.symm
              simp [findChild, hne, hne2]
      · rw [if_neg hn] at h
        cases hr : applyDeviationChildren rest p ps nty with
        | error e => rw [hr] at h; simp at h
        | ok rest2 =>
            rw [hr] at h
            injection h with h2
            subst h2
            obtain ⟨⟨c0, c2, hf, hd, hf2⟩, hfr⟩ := applyDevCh_spec rest p ps nty rest2 hr
            constructor
            · exact ⟨c0, c2, by simp [findChild, hn, hf], hd, by simp [findChild, hn, hf2]⟩
            · intro x hx
              by_cases hcx : nodeName c = x
              · simp [findChild, hcx]
              · simp [findChild, hcx, hfr x hx]

/-- A successful deviation targeted a leaf, and afterwards the same path
holds a leaf with the same name and the replacement type. -/
theorem applyDev_target : ∀ (p : List String) (s : SchemaNode) (nty : TypeSpec)
    (s2 : SchemaNode), applyDeviation s p nty = .ok s2 →
      ∃ n ty, resolve s p = some (.leaf n ty) ∧ resolve s2 p = some (.leaf n nty)
  | [], s, nty, s2, h => by
      cases s with
      | leaf n ty =>
          simp only [applyDeviation] at h
          injection h with h2
          subst h2
          exact ⟨n, ty, rfl, rfl⟩
      | container n ch => simp [applyDeviation] at h
  | a :: ps, s, nty, s2, h => by
      cases s with
      | leaf n ty => simp [applyDeviation] at h
      | container n ch =>
          simp only [applyDeviation] at h
          cases hc : applyDeviationChildren ch a ps nty with
          | error e => rw [hc] at h; simp at h
          | ok ch2 =>
              rw [hc] at h
              injection h with h2
              subst h2
              obtain ⟨⟨c, c2, hf, hd, hf2⟩, _⟩ := applyDevCh_spec ch a ps nty ch2 hc
              obtain ⟨n2, ty2, hr1, hr2⟩ := applyDev_target ps c nty c2 hd
              exact ⟨n2, ty2, by simp [resolve, hf, hr1], by simp [resolve, hf2, hr2]⟩

/-- Frame property of deviation: every path that is not a prefix of the
target path resolves to the same node before and after the deviation. -/
theorem applyDev_frame : ∀ (p : List String) (s : SchemaNode) (nty : TypeSpec)
    (s2 : SchemaNode), applyDeviation s p nty = .ok s2 →
      ∀ q : List String, ¬ q <+: p → resolve s2 q = resolve s q
  | [], s, nty, s2, h, q, hq => by
      cases s with
      | leaf n ty =>
          simp only [applyDeviation] at h
          injection h with h2
          subst h2
          cases q with
          | nil => exact absurd List.nil_prefix hq
          | cons x qs => rfl
      | container n ch => simp [applyDeviation] at h
  | a :: ps, s, nty, s2, h, q, hq => by
      cases s with
      | leaf n ty => simp [applyDeviation] at h
      | container n ch =>
          simp only [applyDeviation] at h
          cases hc : applyDeviationChildren ch a ps nty with
          | error e => rw [hc] at h; simp at h
          | ok ch2 =>
              rw [hc] at h
              injection h with h2
              subst h2
              obtain ⟨⟨c, c2, hf, hd, hf2⟩, hfr⟩ := applyDevCh_spec ch a ps nty ch2 hc
              cases q with
              | nil => exact absurd List.nil_prefix hq
              | cons x qs =>
                  by_cases hxa : x = a
                  · subst hxa
                    have hqs : ¬ qs <+: ps := by
                      intro hpre
                      exact hq (List.cons_prefix_cons.mpr ⟨rfl, hpre⟩)
                    have := applyDev_frame ps c nty c2 hd qs hqs
                    simp [resolve, hf, hf2, this]
                  · have hne : x ≠ a := hxa
                    simp [resolve, hfr x hne]

/-- C5: applying deviation.yang's replacement of leaf `name`'s type yields a
schema under which the `name="lo0"` tree is invalid while the same tree is
valid against the unmodified base schema; and in general a deviation leaves
the target node's name and leaf kind in place (only its type facet changes)
and resolves every path off the target's chain exactly as before. -/
theorem deviation_precedence :
    Build deviceSchema [nameDeviation] [] = .ok deviatedSchema ∧
    Validate lo0Tree deviceSchema = [] ∧
    Validate lo0Tree deviatedSchema =
      [⟨["device", "interface", "name"],
        "\"lo0\" does not match regular expression pattern \"^(eth[0-9]+|wlan[0-9]+)$\""⟩] ∧
    (∀ (s : SchemaNode) (p : List String) (nty : TypeSpec) (s2 : SchemaNode),
      applyDeviation s p nty = .ok s2 →
        (∃ n ty, resolve s p = some (.leaf n ty) ∧ resolve s2 p = some (.leaf n nty)) ∧
        (∀ q, ¬ q <+: p → resolve s2 q = resolve s q)) :=
  ⟨rfl, by decide, by decide,
   fun s p nty s2 h => ⟨applyDev_target p s nty s2 h, applyDev_frame p s nty s2 h⟩⟩

/-- Witness for C5: the concrete name deviation keeps leaf `name` a leaf named
`name` (with the pattern type) and leaves `/interface/mtu` untouched. -/
theorem deviation_precedence_witness :
    (∃ n ty, resolve deviceSchema ["interface", "name"] = some (.leaf n ty) ∧
      resolve deviatedSchema ["interface", "name"] =
        some (.leaf n (.scalar .ystring ethWlanPattern))) ∧
    resolve deviatedSchema ["interface", "mtu"] = resolve deviceSchema ["interface", "mtu"] :=
  have h := deviation_precedence.2.2.2 deviceSchema ["interface", "name"]
    (.scalar .ystring ethWlanPattern) deviatedSchema rfl
  ⟨h.1, h.2 ["interface", "mtu"] (by decide)⟩

/-! ## Theorems: Schema Tree Builder (augmentation) -/

/-- If the child named `p` exists and augmenting inside it fails, augmenting
the whole child list fails with the same error. -/
theorem applyAugCh_error : ∀ (ch : SchemaChildren) (p : String) (ps : List String)
    (child c : SchemaNode) (e : BuildErr), findChild p ch = some c →
      applyAugment c ps child = .error e →
      applyAugmentChildren ch p ps child = .error e
  | .nil, p, ps, child, c, e, hf, he => by simp [findChild] at hf
  | .cons c0 rest, p, ps, child, c, e, hf, he => by
      by_cases hn : nodeName c0 = p
      · have hc : c = c0 := by
          have := hf
          simp only [findChild, if_pos hn] at this
          exact (Option.some.injEq _ _ ▸ this).symm
        subst hc
        simp [applyAugmentChildren, hn, he]
      · have hf2 : findChild p rest = some c := by
          simpa [findChild, hn] using hf
        simp [applyAugmentChildren, hn, applyAugCh_error rest p ps child c e hf2 he]

/-- When the target path resolves to a container one of whose children
already bears the new child's name, augmentation fails with
`DuplicateChild`. -/
theorem applyAug_dup : ∀ (p : List String) (s child : SchemaNode) (n : String)
    (ch : SchemaChildren),
    resolve s p = some (.container n ch) →
    (childNames ch).contains (nodeName child) = true →
    applyAugment s p child = .error .duplicateChild
  | [], s, child, n, ch, hres, hdup => by
      obtain rfl : s = .container n ch := by simpa [resolve] using hres
      simp only [applyAugment]
      rw [if_pos hdup]
  | a :: ps, s, child, n, ch, hres, hdup => by
      cases s with
      | leaf n0 ty => simp [resolve] at hres
      | container n0 ch0 =>
          simp only [resolve] at hres
          cases hf : findChild a ch0 with
          | none => rw [hf] at hres; simp at hres
          | some c =>
              rw [hf] at hres
              have hrec := applyAug_dup ps c child n ch hres hdup
              simp only [applyAugment]
              rw [applyAugCh_error ch0 a ps child c .duplicateChild hf hrec]

/-- C7: building with the augmentation that inserts the new leaf `status`
(and `bandwidth`) under container `interface` succeeds, inserting `name`
— which collides with an existing child — fails with `DuplicateChild` (an
error result carries no schema tree), and in general augmenting any container
with a child whose name already occurs among its children fails with
`DuplicateChild`. -/
theorem augmentation_non_collision :
    Build deviceSchema [nameDeviation]
      [⟨["interface"], statusLeaf⟩, ⟨["interface"], bandwidthLeaf⟩] = .ok fullSchema ∧
    Build deviceSchema []
      [⟨["interface"], .leaf "name" (.scalar .ystring .cnone)⟩] = .error .duplicateChild ∧
    (∀ (s child : SchemaNode) (p : List String) (n : String) (ch : SchemaChildren),
      resolve s p = some (.container n ch) →
      (childNames ch).contains (nodeName child) = true →
      applyAugment s p child = .error .duplicateChild) :=
  ⟨rfl, rfl, fun s child p n ch h1 h2 => applyAug_dup p s child n ch h1 h2⟩

/-- Witness for C7: augmenting `interface` with another leaf `name` fails with
`DuplicateChild`. -/
theorem augmentation_non_collision_witness :
    applyAugment deviceSchema ["interface"] (.leaf "name" (.scalar .ystring .cnone)) =
      .error .duplicateChild :=
  augmentation_non_collision.2.2 deviceSchema (.leaf "name" (.scalar .ystring .cnone))
    ["interface"] "interface"
    (.cons (.leaf "name" (.scalar .ystring .cnone))
      (.cons (.leaf "mtu" (.scalar (.yint false 16) mtuRange))
        (.cons (.leaf "priority" (.scalar (.yint false 8) priorityRange)) .nil)))
    rfl (by decide)

/-! ## Theorems: Codec round-trip -/

/-- If some list element satisfies the predicate, `findIdx?` finds an index. -/
theorem any_findIdx?_some {α : Type} {l : List α} {p : α → Bool} (h : l.any p = true) :
    ∃ k, l.findIdx? p = some k := by
  have : (l.findIdx? p).isSome = true := by rw [List.findIdx?_isSome, h]
  exact Option.isSome_iff_exists.mp this

mutual
/-- Decoding the encoding of a well-shaped, well-typed data tree against its
schema reproduces the tree exactly. -/
theorem Decode_Encode : ∀ (t : DataTree) (s : SchemaNode) (path : List String),
    wtNode t s = true → Decode (Encode t) s path = .ok t
  | .leafV v, .leaf n ty, path, h => by
      cases v with
      | s str =>
          cases ty with
          | scalar bt c =>
              cases bt with
              | ystring => rfl
              | yint sg w => simp [wtNode, compatible] at h
          | tunion alts =>
              simp only [wtNode] at h
              obtain ⟨k, hk⟩ := any_findIdx?_some h
              simp [Encode, Decode, unionAssign, hk]
      | i m =>
          cases ty with
          | scalar bt c =>
              cases bt with
              | ystring => simp [wtNode, compatible] at h
              | yint sg w =>
                  have hfit : intFits sg w m = true := by simpa [wtNode, compatible] using h
                  simp [Encode, Decode, hfit]
          | tunion alts =>
              simp only [wtNode] at h
              obtain ⟨k, hk⟩ := any_findIdx?_some h
              simp [Encode, Decode, unionAssign, hk]
  | .leafV _, .container _ _, _, h => by simp [wtNode] at h
  | .node _, .leaf _ _, _, h => by simp [wtNode] at h
  | .node es, .container n ch, path, h => by
      simp only [wtNode] at h
      simp only [Encode, Decode]
      rw [decodeFields_encodeEntries es ch (path ++ [n]) h]

/-- Decoding the encoded entries of a well-typed node reproduces the entries. -/
theorem decodeFields_encodeEntries : ∀ (es : Entries) (ch : SchemaChildren)
    (path : List String), wtEntries es ch = true →
      decodeFields (encodeEntries es) ch path = .ok es
  | .nil, _, _, _ => rfl
  | .cons k t rest, ch, path, h => by
      simp only [wtEntries] at h
      cases hf : findChild k ch with
      | none => rw [hf] at h; simp at h
      | some c =>
          rw [hf] at h
          have h2 : wtNode t c = true ∧ wtEntries rest ch = true := by simpa using h
          simp only [encodeEntries, decodeFields, hf]
          rw [Decode_Encode t c path h2.1, decodeFields_encodeEntries rest ch path h2.2]
end

/-- C1: codec round-trip — for every data tree that is valid under a schema
(well shaped and typed by it, with no validation violations), decoding the
JSON produced by encoding it yields the identical data tree, so every present
leaf reachable from the encoded subtree is reproduced field-for-field. -/
theorem codec_roundtrip (t : DataTree) (s : SchemaNode) (path : List String)
    (hshape : wtNode t s = true) (_hvalid : Validate t s = []) :
    Decode (Encode t) s path = .ok t :=
  Decode_Encode t s path hshape

/-- The fully populated valid interface tree: `name="eth0"`, `mtu=1500`,
`priority=12`, `status="up"`, `bandwidth=1000`. -/
def goodTree : DataTree :=
  .node (.cons "interface"
    (.node (.cons "name" (.leafV (.s "eth0"))
      (.cons "mtu" (.leafV (.i 1500))
        (.cons "priority" (.leafV (.i 12))
          (.cons "status" (.leafV (.s "up"))
            (.cons "bandwidth" (.leafV (.i 1000)) .nil)))))) .nil)

/-- Witness for C1: the populated interface tree is valid under the full
schema and round-trips through the codec. -/
theorem codec_roundtrip_witness :
    wtNode goodTree fullSchema = true ∧ Validate goodTree fullSchema = [] ∧
    Decode (Encode goodTree) fullSchema [] = .ok goodTree :=
  ⟨by decide, by decide, codec_roundtrip goodTree fullSchema [] (by decide) (by decide)⟩

/-! ## Theorems: the `Unmarshal` wrapper -/

/-- C10: `Unmarshal` with a destination type name absent from the `SchemaTree`
map returns the error naming that type for *every* input — before any JSON is
parsed — leaving the destination unchanged; and when the type is known but the
JSON text is syntactically invalid it returns the JSON parse error, again
leaving the destination unchanged. -/
theorem unmarshal_unknown_type :
    (∀ (data tn : String) (dest : DataTree), SchemaTree.lookup tn = none →
      Unmarshal data tn dest = (some ("could not find schema for type " ++ tn), dest)) ∧
    (∀ (data tn : String) (dest : DataTree) (schema : SchemaNode) (e : String),
      SchemaTree.lookup tn = some schema → parseJson data = .error e →
      Unmarshal data tn dest = (some e, dest)) := by
  constructor
  · intro data tn dest h
    simp [Unmarshal, h]
  · intro data tn dest schema e h1 h2
    simp [Unmarshal, h1, h2]

/-- Witness for C10: the type `Device` has no schema entry, so `Unmarshal`
fails naming it even on malformed input; with the known type
`emptyBranchTestOne` the same malformed input fails with parse errors and the
destination is returned unchanged in both cases. -/
theorem unmarshal_unknown_type_witness :
    Unmarshal "\x7b" "Device" (.node .nil) =
      (some ("could not find schema for type " ++ "Device"), .node .nil) ∧
    Unmarshal "\x7b" "emptyBranchTestOne" (.node .nil) =
      (some "invalid character looking for beginning of object key string", .node .nil) :=
  ⟨unmarshal_unknown_type.1 "\x7b" "Device" (.node .nil) rfl,
   unmarshal_unknown_type.2 "\x7b" "emptyBranchTestOne" (.node .nil) emptyBranchTestOne
     "invalid character looking for beginning of object key string" rfl rfl⟩

end YB
